import Mathlib

/-!
Verification development for the ZF2013 deconvnet re-implementation.

Shallow embedding of `src/models/layers.py` (`ConvLayer`, `DeconvLayer`,
`LayerState`) and `src/models/cnn.py` (`ModelState`, `SimpleCNN` with
`forward`, `normalize_filters`, `deconv_visualization`,
`load_state_dict`).

Tensors are embedded at two levels, matching what the claims need:
* an identity/shape level (`TRef`): a tensor object is an allocation
  identifier plus its shape, so that object sharing (aliasing) and
  cloning across the forward pass is expressible;
* a value level for single channel planes (functions `Nat → Nat → α`
  over an ordered field `α`) for the max-pool / max-unpool semantics,
  and 4-dimensional value tensors (`T4`) for the transposed
  convolution of the deconvolution stage.
-/

namespace ZF

/-- A tensor object at the identity/shape level: an allocation
identifier (distinct identifiers mean distinct storage) plus the
tensor's shape. -/
structure TRef where
  id : Nat
  shape : List Nat
deriving DecidableEq

instance : Inhabited TRef := ⟨⟨0, []⟩⟩

/-- `LayerState` (layers.py): output, pre-pool tensor and pooling
indices of one forward call of a stage.  `ConvLayer.forward` always
fills all three fields, so they are embedded as non-optional. -/
structure LayerStateE where
  output : TRef
  pre_pool : TRef
  pool_indices : TRef
deriving DecidableEq

instance : Inhabited LayerStateE := ⟨⟨default, default, default⟩⟩

/-- A 4-dimensional convolution weight: per output filter, per input
channel, a 2-dimensional kernel given as a list of rows. -/
abbrev Weight (α : Type) := List (List (List (List α)))

/-- `ConvLayer` (layers.py): a convolution with batch-norm, ReLU and a
2×2 max pool.  Only the data needed by the claims is carried: the
constructor arguments, the padding computed by `__init__`, and the
convolution weight. -/
structure ConvLayer (α : Type) where
  in_channels : Nat
  out_channels : Nat
  kernel_size : Nat
  stride : Nat
  padding : Nat
  weight : Weight α
deriving DecidableEq

/-- `ConvLayer.__init__`: `padding = ((stride - 1) + kernel_size - 1) // 2`,
then `nn.Conv2d(..., stride=stride, padding=padding)`. -/
def mkConvLayer (in_channels out_channels kernel_size stride : Nat) (w : Weight α) :
    ConvLayer α :=
  { in_channels := in_channels
    out_channels := out_channels
    kernel_size := kernel_size
    stride := stride
    padding := ((stride - 1) + kernel_size - 1) / 2
    weight := w }

/-- Spatial output size of `nn.Conv2d`: `(n + 2p - k) / s + 1` (floor
division; only meaningful when `k ≤ n + 2p`, which `layerForward`
guards). -/
def convOutSize (n k s p : Nat) : Nat := (n + 2 * p - k) / s + 1

/-- Identity/shape semantics of `ConvLayer.forward`: convolution
(requiring the configured input channel count and a non-degenerate
output extent), batch-norm and ReLU preserve the shape, then the
2×2 stride-2 max pool halves both spatial axes (floor) and records
indices of the same shape as the pooled output.  Fresh identifiers:
`n` for `pre_pool`, `n + 1` for `output`, `n + 2` for `pool_indices`;
the next free identifier is `n + 3`. -/
def layerForward (L : ConvLayer α) (x : TRef) (n : Nat) : Option (LayerStateE × Nat) :=
  match x.shape with
  | [b, c, h, w] =>
    if c = L.in_channels ∧ 0 < L.stride ∧
        L.kernel_size ≤ h + 2 * L.padding ∧ L.kernel_size ≤ w + 2 * L.padding then
      let h1 := convOutSize h L.kernel_size L.stride L.padding
      let w1 := convOutSize w L.kernel_size L.stride L.padding
      if 2 ≤ h1 ∧ 2 ≤ w1 then
        some ({ output := ⟨n + 1, [b, L.out_channels, h1 / 2, w1 / 2]⟩
                pre_pool := ⟨n, [b, L.out_channels, h1, w1]⟩
                pool_indices := ⟨n + 2, [b, L.out_channels, h1 / 2, w1 / 2]⟩ }, n + 3)
      else none
    else none
  | _ => none

/-- C7: every `ConvLayer` uses zero padding `((s-1)+k-1)/2` on each
spatial axis, and for stride 1 and odd kernel size the pre-pool tensor
(after convolution, normalization and rectification, before the 2×2
pool) has exactly the input spatial size. -/
theorem claim_C7 {α : Type} (cin cout k s : Nat) (w : Weight α)
    (b c h wd i n : Nat) (hk : k % 2 = 1) (hh : 2 ≤ h) (hw : 2 ≤ wd) (hc : c = cin) :
    (mkConvLayer (α := α) cin cout k s w).padding = ((s - 1) + k - 1) / 2 ∧
    ∃ st m, layerForward (mkConvLayer cin cout k 1 w) ⟨i, [b, c, h, wd]⟩ n = some (st, m) ∧
      st.pre_pool.shape = [b, cout, h, wd] := by
  constructor
  · rfl
  · have hp : (mkConvLayer (α := α) cin cout k 1 w).padding = (k - 1) / 2 := by
      simp [mkConvLayer]
    have hconv : ∀ m : Nat, 1 ≤ m → convOutSize m k 1 ((k - 1) / 2) = m := by
      intro m hm
      unfold convOutSize
      omega
    refine ⟨{ output := ⟨n + 1, [b, cout, h / 2, wd / 2]⟩
              pre_pool := ⟨n, [b, cout, h, wd]⟩
              pool_indices := ⟨n + 2, [b, cout, h / 2, wd / 2]⟩ }, n + 3, ?_, rfl⟩
    unfold layerForward
    simp only [mkConvLayer]
    rw [if_pos ⟨hc, by omega, by omega, by omega⟩]
    simp only [show ((1 - 1) + k - 1) / 2 = (k - 1) / 2 by omega]
    rw [hconv h (by omega), hconv wd (by omega)]
    rw [if_pos ⟨hh, hw⟩]

/-- Witness for C7 at the concrete first hidden stage configuration
(kernel 7, stride 1, a 224×224 input). -/
theorem claim_C7_witness :
    (mkConvLayer (α := ℚ) 96 256 7 1 []).padding = ((1 - 1) + 7 - 1) / 2 ∧
    ∃ st m, layerForward (mkConvLayer (α := ℚ) 96 256 7 1 [])
        ⟨0, [1, 96, 224, 224]⟩ 5 = some (st, m) ∧
      st.pre_pool.shape = [1, 256, 224, 224] :=
  claim_C7 96 256 7 1 [] 1 96 224 224 0 5 (by decide) (by decide) (by decide) rfl

/-- `ModelState` (cnn.py): logits, the per-stage layer states in stage
order, and the optional explicit feature capture. -/
structure ModelStateE where
  logits : TRef
  layer_states : List LayerStateE
  features : Option TRef := none
deriving DecidableEq

/-- `ModelState.final_features`: the stored `features` when present,
otherwise the last layer state's output. -/
def ModelStateE.final_features (ms : ModelStateE) : TRef :=
  match ms.features with
  | some f => f
  | none => (ms.layer_states.getD (ms.layer_states.length - 1) default).output

/-- The configuration object consumed by `SimpleCNN.__init__`. -/
structure Config where
  conv1_channels : Nat
  conv2_channels : Nat
  conv3_channels : Nat
  conv4_channels : Nat
  kernel_size : Nat
  fc_units : Nat

/-- The default configuration of the testable scenarios. -/
def defaultConfig : Config :=
  { conv1_channels := 96, conv2_channels := 256, conv3_channels := 384
    conv4_channels := 384, kernel_size := 7, fc_units := 1000 }

/-- `SimpleCNN`: the conv stages, the deconv stages (each one holding
only the index of its paired conv stage — a non-owning reference, no
weight copy), the classifier dimensions and the normalization radius. -/
structure SimpleCNN (α : Type) where
  conv_layers : List (ConvLayer α)
  deconv_layers : List Nat
  fc_in : Nat
  fc_out : Nat
  filter_radius : α

/-- `SimpleCNN.__init__`: four conv stages (the first with stride 2,
the rest stride 1), the deconv stages wired to conv stages 3, 2, 1, 0
in that order, and a classifier from `conv4_channels * 7 * 7` flattened
features to `fc_units` outputs; `filter_radius = 1e-1`. -/
def mkSimpleCNN [DivisionRing α] (cfg : Config) (w1 w2 w3 w4 : Weight α) : SimpleCNN α :=
  { conv_layers :=
      [ mkConvLayer 3 cfg.conv1_channels cfg.kernel_size 2 w1
      , mkConvLayer cfg.conv1_channels cfg.conv2_channels cfg.kernel_size 1 w2
      , mkConvLayer cfg.conv2_channels cfg.conv3_channels cfg.kernel_size 1 w3
      , mkConvLayer cfg.conv3_channels cfg.conv4_channels cfg.kernel_size 1 w4 ]
    deconv_layers := [3, 2, 1, 0]
    fc_in := cfg.conv4_channels * 7 * 7
    fc_out := cfg.fc_units
    filter_radius := 1 / 10 }

/-- `SimpleCNN._collect_layer_state`: for the final stage
(`layer_idx == len(conv_layers)`) store a clone of the output (a fresh
identifier `n` with the same shape — equal value, distinct storage)
while passing `pre_pool` and `pool_indices` through unchanged; every
other stage's state is returned as is. -/
def collectLayerState (total layer_idx : Nat) (st : LayerStateE) (n : Nat) :
    LayerStateE × Nat :=
  if layer_idx = total then
    ({ output := ⟨n, st.output.shape⟩
       pre_pool := st.pre_pool
       pool_indices := st.pool_indices }, n + 1)
  else (st, n)

/-- The loop of `SimpleCNN.forward`
(`for i, layer in enumerate(self.conv_layers, 1)`):
run each stage on the previous stage's output, collect the (possibly
cloned) layer state, and pass the raw stage output on.  Besides the
collected states, the result records the input tensor consumed at each
iteration (the successive values of the loop variable `x`), so that the
sharing of tensors across iterations is observable. -/
def forwardLoop (layers : List (ConvLayer α)) (i total : Nat) (x : TRef) (n : Nat) :
    Option (List LayerStateE × List TRef × TRef × Nat) :=
  match layers with
  | [] => some ([], [], x, n)
  | L :: rest =>
    match layerForward L x n with
    | none => none
    | some (raw, n1) =>
      let c := collectLayerState total i raw n1
      match forwardLoop rest (i + 1) total raw.output c.2 with
      | none => none
      | some (sts, ins, xf, nf) => some (c.1 :: sts, x :: ins, xf, nf)

/-- `SimpleCNN.forward`: run all stages, then flatten the final output
(`x.view(x.size(0), -1)`, identifier `nf`) and apply the classifier
(logits identifier `nf + 1`); the pre-flatten tensor is stored as
`features`. -/
def SimpleCNN.forward (cnn : SimpleCNN α) (x : TRef) (n : Nat) : Option ModelStateE :=
  match forwardLoop cnn.conv_layers 1 cnn.conv_layers.length x n with
  | none => none
  | some (sts, _, xf, nf) =>
    match xf.shape with
    | [b, c, h, w] =>
      if c * h * w = cnn.fc_in then
        some { logits := ⟨nf + 1, [b, cnn.fc_out]⟩
               layer_states := sts
               features := some xf }
      else none
    | _ => none

/-- C6: on the 4-stage default configuration, `forward` on a
(N,3,224,224) batch returns logits of shape (N, fc_units) = (N, 1000),
exactly 4 layer states whose 4th output has spatial size 7×7, and a
non-optional `features` capture equal in shape to the final pooled
tensor; in particular the (1,3,224,224) scenario succeeds. -/
theorem claim_C6 {α : Type} [DivisionRing α] (N : Nat) (w1 w2 w3 w4 : Weight α) :
    ∃ ms, (mkSimpleCNN defaultConfig w1 w2 w3 w4).forward ⟨0, [N, 3, 224, 224]⟩ 1 = some ms ∧
      ms.logits.shape = [N, 1000] ∧
      ms.layer_states.length = 4 ∧
      (ms.layer_states.getD 3 default).output.shape = [N, 384, 7, 7] ∧
      ∃ xf, ms.features = some xf ∧ xf.shape = [N, 384, 7, 7] := by
  refine ⟨{ logits := ⟨15, [N, 1000]⟩
            layer_states :=
              [ ⟨⟨2, [N, 96, 56, 56]⟩, ⟨1, [N, 96, 112, 112]⟩, ⟨3, [N, 96, 56, 56]⟩⟩
              , ⟨⟨5, [N, 256, 28, 28]⟩, ⟨4, [N, 256, 56, 56]⟩, ⟨6, [N, 256, 28, 28]⟩⟩
              , ⟨⟨8, [N, 384, 14, 14]⟩, ⟨7, [N, 384, 28, 28]⟩, ⟨9, [N, 384, 14, 14]⟩⟩
              , ⟨⟨13, [N, 384, 7, 7]⟩, ⟨10, [N, 384, 14, 14]⟩, ⟨12, [N, 384, 7, 7]⟩⟩ ]
            features := some ⟨11, [N, 384, 7, 7]⟩ }, ?_, rfl, rfl, rfl, ⟨11, [N, 384, 7, 7]⟩, rfl, rfl⟩
  norm_num [SimpleCNN.forward, forwardLoop, layerForward, mkSimpleCNN, mkConvLayer,
    defaultConfig, collectLayerState, convOutSize]

/-- Allocation pattern of one stage: `layerForward` hands out the
identifiers `n` (pre_pool), `n + 1` (output), `n + 2` (pool_indices)
and returns `n + 3` as the next free identifier. -/
theorem layerForward_ids {α : Type} (L : ConvLayer α) (x : TRef) (n : Nat)
    (st : LayerStateE) (m : Nat) (h : layerForward L x n = some (st, m)) :
    m = n + 3 ∧ st.pre_pool.id = n ∧ st.output.id = n + 1 ∧ st.pool_indices.id = n + 2 := by
  unfold layerForward at h
  split at h
  · dsimp only at h
    split at h
    · split at h
      · simp only [Option.some.injEq, Prod.mk.injEq] at h
        obtain ⟨hst, hm⟩ := h
        subst hst
        exact ⟨hm.symm, rfl, rfl, rfl⟩
      · exact absurd h (by simp)
    · exact absurd h (by simp)
  · exact absurd h (by simp)

/-- Sharing discipline of the forward loop: each collected layer
state's `output` (except the last stage's) is literally the tensor
consumed as input by the following stage; the last collected state's
`output` is a fresh clone (distinct identifier, same shape) of the
tensor that flows on, while its `pre_pool` and `pool_indices` are the
very tensors allocated by that stage's forward call (identifiers
adjacent to the raw output's). -/
theorem forwardLoop_spec {α : Type} :
    ∀ (layers : List (ConvLayer α)) (e T : Nat) (x : TRef) (n : Nat)
      (sts : List LayerStateE) (ins : List TRef) (xf : TRef) (nf : Nat),
      e + layers.length = T + 1 →
      forwardLoop layers e T x n = some (sts, ins, xf, nf) →
      sts.length = layers.length ∧ ins.length = layers.length ∧
      (∀ t, t + 1 < sts.length → ins.getD (t + 1) default = (sts.getD t default).output) ∧
      (0 < sts.length →
        ins.getD 0 default = x ∧
        (sts.getD (sts.length - 1) default).output.id = xf.id + 2 ∧
        (sts.getD (sts.length - 1) default).output.shape = xf.shape ∧
        (sts.getD (sts.length - 1) default).pre_pool.id + 1 = xf.id ∧
        (sts.getD (sts.length - 1) default).pool_indices.id = xf.id + 1) := by
  intro layers
  induction layers with
  | nil =>
    intro e T x n sts ins xf nf _ h
    simp only [forwardLoop, Option.some.injEq, Prod.mk.injEq] at h
    obtain ⟨h1, h2, h3, h4⟩ := h
    subst h1; subst h2
    simp
  | cons L rest ih =>
    intro e T x n sts ins xf nf he h
    simp only [forwardLoop] at h
    cases hL : layerForward L x n with
    | none => rw [hL] at h; exact absurd h (by simp)
    | some p =>
      obtain ⟨raw, n1⟩ := p
      rw [hL] at h
      simp only at h
      cases hrec : forwardLoop rest (e + 1) T raw.output (collectLayerState T e raw n1).2 with
      | none => rw [hrec] at h; exact absurd h (by simp)
      | some q =>
        obtain ⟨sts', ins', xf', nf'⟩ := q
        rw [hrec] at h
        simp only [Option.some.injEq, Prod.mk.injEq] at h
        obtain ⟨hsts, hins, hxf, hnf⟩ := h
        subst hsts; subst hins; subst hxf
        have hrest : (e + 1) + rest.length = T + 1 := by
          simp only [List.length_cons] at he; omega
        obtain ⟨ihlen, ihlen2, ihmid, ihlast⟩ :=
          ih (e + 1) T raw.output (collectLayerState T e raw n1).2 sts' ins' xf' nf' hrest hrec
        cases rest with
        | nil =>
          have heT : e = T := by
            simp only [List.length_cons, List.length_nil] at he; omega
          subst heT
          simp only [forwardLoop, Option.some.injEq, Prod.mk.injEq] at hrec
          obtain ⟨hs0, hi0, hx', hn'⟩ := hrec
          obtain ⟨hm, hpre, hout, hidx⟩ := layerForward_ids L x n raw n1 hL
          subst hs0; subst hi0
          have hc : collectLayerState e e raw n1 =
              ({ output := ⟨n1, raw.output.shape⟩
                 pre_pool := raw.pre_pool
                 pool_indices := raw.pool_indices }, n1 + 1) := by
            simp [collectLayerState]
          rw [hc]
          refine ⟨by simp, by simp, by intro t ht; simp at ht, ?_⟩
          intro _
          refine ⟨rfl, ?_, ?_, ?_, ?_⟩ <;>
            simp [← hx', hpre, hout, hidx, hm]
        | cons R rest' =>
          have hne : e ≠ T := by
            simp only [List.length_cons] at he; omega
          have hcol : collectLayerState T e raw n1 = (raw, n1) := by
            simp [collectLayerState, hne]
          rw [hcol] at *
          have hlen' : sts'.length = rest'.length + 1 := by
            simpa using ihlen
          constructor
          · simp [ihlen]
          constructor
          · simp [ihlen2]
          constructor
          · intro t ht
            cases t with
            | zero =>
              have h0 := ihlast (by omega)
              simpa using h0.1
            | succ t' =>
              have ht' : t' + 1 < sts'.length := by
                simp only [List.length_cons] at ht; omega
              simpa using ihmid t' ht'
          · intro _
            have hlast := ihlast (by omega)
            have hidx1 : (raw :: sts').length - 1 = (sts'.length - 1) + 1 := by
              simp only [List.length_cons]; omega
            refine ⟨rfl, ?_, ?_, ?_, ?_⟩
            · rw [hidx1]; simpa using hlast.2.1
            · rw [hidx1]; simpa using hlast.2.2.1
            · rw [hidx1]; simpa using hlast.2.2.2.1
            · rw [hidx1]; simpa using hlast.2.2.2.2

/-- C10: every `ModelState` returned by `forward` has a non-`none`
`features` field, so `final_features` returns it and never falls back
to the last layer state's output; each non-final collected layer
state's `output` is the identical tensor (same identifier) consumed as
input by the next stage; and the final layer state's `output` is a
clone of the tensor that flows on to the classifier (distinct
identifier, equal shape), while its `pre_pool` and `pool_indices` are
the shared tensors allocated by the final stage's own forward call
(the identifiers directly adjacent to the flowing output's). -/
theorem claim_C10 {α : Type} (cnn : SimpleCNN α) (x : TRef) (n : Nat) (ms : ModelStateE)
    (h : cnn.forward x n = some ms) :
    ms.features.isSome = true ∧
    (∃ f, ms.features = some f ∧ ms.final_features = f) ∧
    ∃ sts ins xf nf,
      forwardLoop cnn.conv_layers 1 cnn.conv_layers.length x n = some (sts, ins, xf, nf) ∧
      ms.layer_states = sts ∧ ms.features = some xf ∧
      (∀ t, t + 1 < sts.length → ins.getD (t + 1) default = (sts.getD t default).output) ∧
      (0 < sts.length →
        (sts.getD (sts.length - 1) default).output.id ≠ xf.id ∧
        (sts.getD (sts.length - 1) default).output.shape = xf.shape ∧
        (sts.getD (sts.length - 1) default).pre_pool.id + 1 = xf.id ∧
        (sts.getD (sts.length - 1) default).pool_indices.id = xf.id + 1) := by
  unfold SimpleCNN.forward at h
  split at h
  · exact absurd h (by simp)
  next sts ins xf nf hloop =>
    split at h
    next b c hh ww hshape =>
      split at h
      · simp only [Option.some.injEq] at h
        subst h
        obtain ⟨hlen, hlen2, hmid, hlast⟩ :=
          forwardLoop_spec cnn.conv_layers 1 cnn.conv_layers.length x n sts ins xf nf
            (by omega) hloop
        refine ⟨rfl, ⟨xf, rfl, rfl⟩, sts, ins, xf, nf, hloop, rfl, rfl, hmid, ?_⟩
        intro hpos
        obtain ⟨_, hid, hsh, hpre, hidx⟩ := hlast hpos
        exact ⟨by omega, hsh, hpre, hidx⟩
      · exact absurd h (by simp)
    · exact absurd h (by simp)

/-- The concrete network used by witnesses: the default configuration
over `ℚ` with empty weight lists. -/
def cnnExQ : SimpleCNN ℚ := mkSimpleCNN defaultConfig [] [] [] []

/-- The model state produced by `cnnExQ.forward` on a zero batch of
shape (1,3,224,224) with the identifier counter starting at 1. -/
def msEx10 : ModelStateE :=
  { logits := ⟨15, [1, 1000]⟩
    layer_states :=
      [ ⟨⟨2, [1, 96, 56, 56]⟩, ⟨1, [1, 96, 112, 112]⟩, ⟨3, [1, 96, 56, 56]⟩⟩
      , ⟨⟨5, [1, 256, 28, 28]⟩, ⟨4, [1, 256, 56, 56]⟩, ⟨6, [1, 256, 28, 28]⟩⟩
      , ⟨⟨8, [1, 384, 14, 14]⟩, ⟨7, [1, 384, 28, 28]⟩, ⟨9, [1, 384, 14, 14]⟩⟩
      , ⟨⟨13, [1, 384, 7, 7]⟩, ⟨10, [1, 384, 14, 14]⟩, ⟨12, [1, 384, 7, 7]⟩⟩ ]
    features := some ⟨11, [1, 384, 7, 7]⟩ }

/-- Witness for C10 on a concrete forward call. -/
theorem claim_C10_witness :
    msEx10.features.isSome = true ∧
    (∃ f, msEx10.features = some f ∧ msEx10.final_features = f) ∧
    ∃ sts ins xf nf,
      forwardLoop cnnExQ.conv_layers 1 cnnExQ.conv_layers.length ⟨0, [1, 3, 224, 224]⟩ 1 =
        some (sts, ins, xf, nf) ∧
      msEx10.layer_states = sts ∧ msEx10.features = some xf ∧
      (∀ t, t + 1 < sts.length → ins.getD (t + 1) default = (sts.getD t default).output) ∧
      (0 < sts.length →
        (sts.getD (sts.length - 1) default).output.id ≠ xf.id ∧
        (sts.getD (sts.length - 1) default).output.shape = xf.shape ∧
        (sts.getD (sts.length - 1) default).pre_pool.id + 1 = xf.id ∧
        (sts.getD (sts.length - 1) default).pool_indices.id = xf.id + 1) :=
  claim_C10 cnnExQ ⟨0, [1, 3, 224, 224]⟩ 1 msEx10 (by decide)

/-- The step list of the loop of `SimpleCNN.deconv_visualization`
(`for i, deconv_layer in enumerate(self.deconv_layers[start_idx:], start_idx + 1)`):
each executed step is the pair (position of the deconv stage in
`deconv_layers`, 0-based index of the layer state consumed, computed
as `layer_num - 1` with `layer_num = len(conv_layers) - i + 1`). -/
def deconvVisSteps (numLayers layer : Nat) : List (Nat × Nat) :=
  let start_idx := numLayers - layer
  (List.range (numLayers - start_idx)).map (fun t =>
    let i := start_idx + 1 + t
    let layer_num := numLayers - i + 1
    (start_idx + t, layer_num - 1))

/-- One reversal step at the shape level (`DeconvLayer.forward`):
unpool to the recorded `pre_pool` shape, then a transposed convolution
with the paired conv stage's stride, padding and kernel, output
padding 1 exactly when that stride exceeds 1, mapping back to the
paired stage's input channel count. -/
def deconvApplyShape (cnn : SimpleCNN α) (pos : Nat) (st : LayerStateE) (s : List Nat) :
    List Nat :=
  let j := cnn.deconv_layers.getD pos 0
  let L := cnn.conv_layers.getD j (mkConvLayer 0 0 0 0 [])
  match s, st.pre_pool.shape with
  | [_, _, _, _], [b, _c, h, w] =>
    let op := if 1 < L.stride then 1 else 0
    [b, L.in_channels, (h - 1) * L.stride + L.kernel_size + op - 2 * L.padding,
      (w - 1) * L.stride + L.kernel_size + op - 2 * L.padding]
  | _, _ => []

/-- `SimpleCNN.deconv_visualization`: validate the 1-based layer index
first (raising before any tensor computation otherwise), then fold the
reversal steps over the feature map. -/
def SimpleCNN.deconv_visualization (cnn : SimpleCNN α) (feature_maps : List Nat)
    (ms : ModelStateE) (layer : Nat) : Except String (List Nat) :=
  if 1 ≤ layer ∧ layer ≤ cnn.conv_layers.length then
    Except.ok ((deconvVisSteps cnn.conv_layers.length layer).foldl
      (fun x step => deconvApplyShape cnn step.1 (ms.layer_states.getD step.2 default) x)
      feature_maps)
  else Except.error "Layer not supported for visualization"

/-- C2: on the 4-stage network, visualizing layer L runs exactly L
steps, the t-th step (t = 0, ..., L-1) using the deconv stage at
position 4-L+t — which is paired with the conv stage at the mirrored
position 3-(4-L+t) — and consuming layer state index L-1-t; so the
steps walk the forward stages L, L-1, ..., 1, each consuming exactly
`layer_states[j-1]` of that stage j, and the number of deconv stages
equals the number of conv stages. -/
theorem claim_C2 {α : Type} [DivisionRing α] (cfg : Config) (w1 w2 w3 w4 : Weight α)
    (L : Nat) (fm : List Nat) (ms : ModelStateE) (h1 : 1 ≤ L) (h2 : L ≤ 4) :
    (mkSimpleCNN cfg w1 w2 w3 w4).deconv_layers.length =
      (mkSimpleCNN cfg w1 w2 w3 w4).conv_layers.length ∧
    deconvVisSteps 4 L = (List.range L).map (fun t => (4 - L + t, L - 1 - t)) ∧
    (∀ p ∈ deconvVisSteps 4 L,
      (mkSimpleCNN cfg w1 w2 w3 w4).deconv_layers.getD p.1 0 = 4 - 1 - p.1 ∧
      p.2 = 4 - 1 - p.1) ∧
    (mkSimpleCNN cfg w1 w2 w3 w4).deconv_visualization fm ms L =
      Except.ok ((deconvVisSteps 4 L).foldl
        (fun x step => deconvApplyShape (mkSimpleCNN cfg w1 w2 w3 w4) step.1
          (ms.layer_states.getD step.2 default) x) fm) := by
  have hd : (mkSimpleCNN cfg w1 w2 w3 w4).deconv_layers = [3, 2, 1, 0] := rfl
  have hc : (mkSimpleCNN cfg w1 w2 w3 w4).conv_layers.length = 4 := rfl
  refine ⟨by rw [hd, hc]; rfl, ?_, ?_, ?_⟩
  · interval_cases L <;> decide
  · rw [hd]
    interval_cases L <;> decide
  · unfold SimpleCNN.deconv_visualization
    rw [hc, if_pos ⟨h1, h2⟩]

/-- Witness for C2 at layer 3. -/
theorem claim_C2_witness :
    (mkSimpleCNN (α := ℚ) defaultConfig [] [] [] []).deconv_layers.length =
      (mkSimpleCNN (α := ℚ) defaultConfig [] [] [] []).conv_layers.length ∧
    deconvVisSteps 4 3 = (List.range 3).map (fun t => (4 - 3 + t, 3 - 1 - t)) ∧
    (∀ p ∈ deconvVisSteps 4 3,
      (mkSimpleCNN (α := ℚ) defaultConfig [] [] [] []).deconv_layers.getD p.1 0 = 4 - 1 - p.1 ∧
      p.2 = 4 - 1 - p.1) ∧
    (mkSimpleCNN (α := ℚ) defaultConfig [] [] [] []).deconv_visualization [1, 384, 28, 28]
        msEx10 3 =
      Except.ok ((deconvVisSteps 4 3).foldl
        (fun x step => deconvApplyShape (mkSimpleCNN (α := ℚ) defaultConfig [] [] [] []) step.1
          (msEx10.layer_states.getD step.2 default) x) [1, 384, 28, 28]) :=
  claim_C2 defaultConfig [] [] [] [] 3 [1, 384, 28, 28] msEx10 (by decide) (by decide)

/-- C8: for a layer index outside [1, N] the visualization fails with
the invalid-argument error before any tensor computation: the result
is the error value and is independent of the feature map and of the
model state. -/
theorem claim_C8 {α : Type} (cnn : SimpleCNN α) (fm : List Nat) (ms : ModelStateE)
    (layer : Nat) (h : ¬(1 ≤ layer ∧ layer ≤ cnn.conv_layers.length)) :
    cnn.deconv_visualization fm ms layer =
      Except.error "Layer not supported for visualization" ∧
    (∀ fm' ms', cnn.deconv_visualization fm ms layer = cnn.deconv_visualization fm' ms' layer) := by
  constructor
  · unfold SimpleCNN.deconv_visualization
    rw [if_neg h]
  · intro fm' ms'
    unfold SimpleCNN.deconv_visualization
    rw [if_neg h, if_neg h]

/-- Witness for C8: layer 5 on the 4-stage network. -/
theorem claim_C8_witness :
    cnnExQ.deconv_visualization [1, 384, 7, 7] msEx10 5 =
      Except.error "Layer not supported for visualization" ∧
    (∀ fm' ms', cnnExQ.deconv_visualization [1, 384, 7, 7] msEx10 5 =
      cnnExQ.deconv_visualization fm' ms' 5) :=
  claim_C8 cnnExQ [1, 384, 7, 7] msEx10 5 (by decide)

/-- A parameter name, as the character sequence of the dotted path
(e.g. `conv_layers.0.conv.weight`). -/
abbrev ParamKey := List Char

/-- The key filter of `SimpleCNN.load_state_dict`:
`key.startswith('conv_layers') or key.startswith('fc')`. -/
def loadKeyOk (k : ParamKey) : Bool :=
  List.isPrefixOf "conv_layers".toList k || List.isPrefixOf "fc".toList k

/-- `nn.Module.load_state_dict` on a parameter mapping: every model
parameter whose name appears in the given dict takes the dict's value,
all others keep their current value; with `strict = True` any
unexpected or missing name is an error, with `strict = False` both are
silently tolerated. -/
def nnLoadStateDict {P : Type} (params sd : List (ParamKey × P)) (strict : Bool) :
    Except String (List (ParamKey × P)) :=
  let updated := params.map (fun kv =>
    match sd.find? (fun e => e.1 == kv.1) with
    | some e => (kv.1, e.2)
    | none => kv)
  if strict then
    if sd.all (fun e => params.any (fun kv => kv.1 == e.1)) &&
        params.all (fun kv => sd.any (fun e => e.1 == kv.1)) then
      Except.ok updated
    else Except.error "unexpected or missing keys in state_dict"
  else Except.ok updated

/-- `SimpleCNN.load_state_dict`: keep only the entries whose names
start with `conv_layers` or `fc`, then load them non-strictly. -/
def SimpleCNN.load_state_dict {P : Type} (params sd : List (ParamKey × P)) :
    Except String (List (ParamKey × P)) :=
  nnLoadStateDict params (sd.filter (fun e => loadKeyOk e.1)) false

/-- C9: the state-dict loader never fails (the partial load always
succeeds structurally); an entry whose name does not correspond to a
convolution-stage or classifier parameter is ignored without error
(dropping it changes nothing); loading an empty mapping succeeds and
leaves every parameter untouched (no completeness validation); and an
entry that does name a convolution-stage parameter is applied. -/
theorem claim_C9 {P : Type} (params sd : List (ParamKey × P)) (k : ParamKey) (v : P)
    (k2 : ParamKey) (v0 v1 : P)
    (hk : loadKeyOk k = false)
    (hk2 : List.isPrefixOf "conv_layers".toList k2 = true) :
    (∃ l, SimpleCNN.load_state_dict params sd = Except.ok l) ∧
    SimpleCNN.load_state_dict params ((k, v) :: sd) = SimpleCNN.load_state_dict params sd ∧
    SimpleCNN.load_state_dict params ([] : List (ParamKey × P)) = Except.ok params ∧
    SimpleCNN.load_state_dict [(k2, v0)] [(k2, v1)] = Except.ok [(k2, v1)] := by
  refine ⟨⟨_, rfl⟩, ?_, ?_, ?_⟩
  · unfold SimpleCNN.load_state_dict
    rw [List.filter_cons_of_neg (by simpa using hk)]
  · simp [SimpleCNN.load_state_dict, nnLoadStateDict]
  · have h2 : ['c', 'o', 'n', 'v', '_', 'l', 'a', 'y', 'e', 'r', 's'] <+: k2 := by
      simpa using hk2
    simp [SimpleCNN.load_state_dict, nnLoadStateDict, loadKeyOk, h2]

/-- Witness for C9 on concrete parameter names: a deconv-stage entry is
dropped, a conv-stage entry is applied. -/
theorem claim_C9_witness :
    (∃ l, SimpleCNN.load_state_dict
        [("conv_layers.0.conv.weight".toList, (0 : Nat)), ("fc.weight".toList, 1)]
        [("deconv_layers.0.conv_layer.conv.weight".toList, 7)] = Except.ok l) ∧
    SimpleCNN.load_state_dict
        [("conv_layers.0.conv.weight".toList, (0 : Nat)), ("fc.weight".toList, 1)]
        (("deconv_layers.0.conv_layer.conv.weight".toList, 7) ::
          [("deconv_layers.0.conv_layer.conv.weight".toList, 7)]) =
      SimpleCNN.load_state_dict
        [("conv_layers.0.conv.weight".toList, (0 : Nat)), ("fc.weight".toList, 1)]
        [("deconv_layers.0.conv_layer.conv.weight".toList, 7)] ∧
    SimpleCNN.load_state_dict
        [("conv_layers.0.conv.weight".toList, (0 : Nat)), ("fc.weight".toList, 1)] [] =
      Except.ok [("conv_layers.0.conv.weight".toList, (0 : Nat)), ("fc.weight".toList, 1)] ∧
    SimpleCNN.load_state_dict [("conv_layers.0.conv.weight".toList, (5 : Nat))]
        [("conv_layers.0.conv.weight".toList, 9)] =
      Except.ok [("conv_layers.0.conv.weight".toList, 9)] :=
  claim_C9
    [("conv_layers.0.conv.weight".toList, (0 : Nat)), ("fc.weight".toList, 1)]
    [("deconv_layers.0.conv_layer.conv.weight".toList, 7)]
    "deconv_layers.0.conv_layer.conv.weight".toList 7
    "conv_layers.0.conv.weight".toList 5 9 (by decide) (by decide)

section Pooling

variable {α : Type} [LinearOrderedField α]

/-- The input positions of the pooling window that produces output
location (i, j), for `nn.MaxPool2d(k)` (kernel k, stride k), in
row-major order. -/
def poolCells (k i j : Nat) : List (Nat × Nat) :=
  (List.range k).flatMap (fun a => (List.range k).map (fun b => (k * i + a, k * j + b)))

/-- The position attaining the maximum of `f` over the given cells
(first such position in list order, as a max-pooling argmax). -/
def bestCell (f : Nat → Nat → α) : List (Nat × Nat) → Option (Nat × Nat)
  | [] => none
  | c :: cs => some (cs.foldl (fun best p => if f best.1 best.2 < f p.1 p.2 then p else best) c)

/-- Value channel of `nn.MaxPool2d(k, return_indices=True)`: the
maximum over the window of output location (i, j). -/
def poolValPlane (f : Nat → Nat → α) (k i j : Nat) : α :=
  match bestCell f (poolCells k i j) with
  | some p => f p.1 p.2
  | none => 0

/-- Index channel of `nn.MaxPool2d(k, return_indices=True)`: the flat
spatial index (row * width + column) of the argmax within the pre-pool
plane of width `W`. -/
def poolIdxPlane (f : Nat → Nat → α) (k W i j : Nat) : Nat :=
  match bestCell f (poolCells k i j) with
  | some p => p.1 * W + p.2
  | none => 0

/-- All output locations of a pooled plane with `hp` rows and `wp`
columns. -/
def gridCells (hp wp : Nat) : List (Nat × Nat) :=
  (List.range hp).flatMap (fun i => (List.range wp).map (fun j => (i, j)))

/-- `nn.MaxUnpool2d` on one channel plane: position (r, c) of the
output (of width `W`, as recorded in the forward pass) receives the
pooled value whose recorded flat index is `r * W + c`; every position
not recorded in the indices receives zero. -/
def unpoolPlane (g : Nat → Nat → α) (idx : Nat → Nat → Nat) (hp wp W r c : Nat) : α :=
  match (gridCells hp wp).find? (fun p => idx p.1 p.2 == r * W + c) with
  | some p => g p.1 p.2
  | none => 0

theorem foldl_best_mem (f : Nat → Nat → α) :
    ∀ (cs : List (Nat × Nat)) (c : Nat × Nat),
      cs.foldl (fun best p => if f best.1 best.2 < f p.1 p.2 then p else best) c ∈ c :: cs := by
  intro cs
  induction cs with
  | nil => intro c; simp
  | cons d cs ih =>
    intro c
    have h := ih (if f c.1 c.2 < f d.1 d.2 then d else c)
    rw [List.foldl_cons]
    rcases List.mem_cons.mp h with h | h
    · rw [h]
      by_cases hcd : f c.1 c.2 < f d.1 d.2 <;> simp [hcd]
    · exact List.mem_cons.mpr (Or.inr (List.mem_cons.mpr (Or.inr h)))

theorem bestCell_mem (f : Nat → Nat → α) (cells : List (Nat × Nat)) (p : Nat × Nat)
    (h : bestCell f cells = some p) : p ∈ cells := by
  cases cells with
  | nil => simp [bestCell] at h
  | cons c cs =>
    simp only [bestCell, Option.some.injEq] at h
    rw [← h]
    exact foldl_best_mem f cs c

theorem mem_poolCells {k i j : Nat} {p : Nat × Nat} (h : p ∈ poolCells k i j) :
    k * i ≤ p.1 ∧ p.1 < k * i + k ∧ k * j ≤ p.2 ∧ p.2 < k * j + k := by
  simp only [poolCells, List.mem_flatMap, List.mem_map, List.mem_range] at h
  obtain ⟨a, ha, b, hb, hp⟩ := h
  rw [← hp]
  omega

theorem mem_gridCells {hp wp : Nat} {p : Nat × Nat} :
    p ∈ gridCells hp wp ↔ p.1 < hp ∧ p.2 < wp := by
  cases p with
  | mk i j =>
    simp only [gridCells, List.mem_flatMap, List.mem_map, List.mem_range, Prod.mk.injEq]
    constructor
    · rintro ⟨a, ha, b, hb, rfl, rfl⟩; exact ⟨ha, hb⟩
    · rintro ⟨hi, hj⟩; exact ⟨i, hi, j, hj, rfl, rfl⟩

theorem flat_index_inj {W a b a' b' : Nat} (hb : b < W) (hb' : b' < W)
    (h : a * W + b = a' * W + b') : a = a' ∧ b = b' := by
  have hW : 0 < W := by omega
  have ha : (a * W + b) / W = a := by
    rw [Nat.mul_comm a W, Nat.mul_add_div hW]
    simp [Nat.div_eq_of_lt hb]
  have ha' : (a' * W + b') / W = a' := by
    rw [Nat.mul_comm a' W, Nat.mul_add_div hW]
    simp [Nat.div_eq_of_lt hb']
  have haa : a = a' := by rw [← ha, ← ha', h]
  subst haa
  exact ⟨rfl, Nat.add_left_cancel h⟩

theorem div_of_window {k i p1 : Nat} (h1 : k * i ≤ p1) (h2 : p1 < k * i + k) : p1 / k = i := by
  apply Nat.div_eq_of_lt_le
  · rw [Nat.mul_comm]; exact h1
  · rw [Nat.add_mul, Nat.one_mul, Nat.mul_comm]; omega

theorem find?_eq_some_of_unique {β : Type} [BEq β] (l : List β) (pred : β → Bool) (p : β)
    (hmem : p ∈ l) (hp : pred p = true) (huniq : ∀ q ∈ l, pred q = true → q = p) :
    l.find? pred = some p := by
  induction l with
  | nil => simp at hmem
  | cons d l ih =>
    by_cases hd : pred d = true
    · have : d = p := huniq d (by simp) hd
      subst this
      simp [List.find?_cons, hd]
    · have hne : d ≠ p := by
        intro h; rw [h] at hd; exact hd hp
      rw [List.find?_cons]
      simp only [hd]
      rcases List.mem_cons.mp hmem with h | h
      · exact absurd h.symm hne
      · exact ih h (fun q hq hpq => huniq q (by simp [hq]) hpq)

theorem poolIdx_exists (f : Nat → Nat → α) (k W i j : Nat) (hk : 0 < k) :
    ∃ p, p ∈ poolCells k i j ∧
      poolIdxPlane f k W i j = p.1 * W + p.2 ∧ poolValPlane f k i j = f p.1 p.2 := by
  have hne : poolCells k i j ≠ [] := by
    have : (k * i, k * j) ∈ poolCells k i j := by
      simp only [poolCells, List.mem_flatMap, List.mem_map, List.mem_range]
      exact ⟨0, hk, 0, hk, by simp⟩
    intro h; rw [h] at this; simp at this
  cases hcl : poolCells k i j with
  | nil => exact absurd hcl hne
  | cons c cs =>
    refine ⟨cs.foldl (fun best p => if f best.1 best.2 < f p.1 p.2 then p else best) c, ?_, ?_, ?_⟩
    · exact foldl_best_mem f cs c
    · simp [poolIdxPlane, hcl, bestCell]
    · simp [poolValPlane, hcl, bestCell]

theorem poolIdx_inv (f : Nat → Nat → α) {k W i j r c : Nat} (hk : 0 < k)
    (hj : j < W / k) (hc : c < W) (h : poolIdxPlane f k W i j = r * W + c) :
    i = r / k ∧ j = c / k := by
  obtain ⟨p, hmem, hidx, _⟩ := poolIdx_exists f k W i j hk
  obtain ⟨hp1, hp2, hp3, hp4⟩ := mem_poolCells hmem
  have hpw : p.2 < W := by
    have h1 : k * j + k ≤ k * (W / k) := by
      have : j + 1 ≤ W / k := hj
      calc k * j + k = k * (j + 1) := by ring
        _ ≤ k * (W / k) := Nat.mul_le_mul_left k this
    have h2 : k * (W / k) ≤ W := by
      rw [Nat.mul_comm]
      exact Nat.div_mul_le_self W k
    omega
  rw [h] at hidx
  obtain ⟨hr1, hr2⟩ := flat_index_inj hpw hc hidx.symm
  constructor
  · rw [hr1] at hp1 hp2
    exact (div_of_window hp1 hp2).symm
  · rw [hr2] at hp3 hp4
    exact (div_of_window hp3 hp4).symm

/-- The max-unpool of a max-pool's own value and index planes scatters
each pooled value back to exactly the recorded position and leaves
every unselected position zero. -/
theorem unpool_pool_scatter (f : Nat → Nat → α) (k H W r c : Nat)
    (hk : 0 < k) (hc : c < W) :
    unpoolPlane (fun i j => poolValPlane f k i j) (fun i j => poolIdxPlane f k W i j)
        (H / k) (W / k) W r c =
      if r / k < H / k ∧ c / k < W / k ∧ poolIdxPlane f k W (r / k) (c / k) = r * W + c
      then poolValPlane f k (r / k) (c / k)
      else 0 := by
  by_cases hcase :
      r / k < H / k ∧ c / k < W / k ∧ poolIdxPlane f k W (r / k) (c / k) = r * W + c
  · rw [if_pos hcase]
    unfold unpoolPlane
    rw [find?_eq_some_of_unique (gridCells (H / k) (W / k))
        (fun p => poolIdxPlane f k W p.1 p.2 == r * W + c) (r / k, c / k)
        (mem_gridCells.mpr ⟨hcase.1, hcase.2.1⟩)
        (by simpa using hcase.2.2)
        ?_]
    intro q hq hpq
    obtain ⟨hq1, hq2⟩ := mem_gridCells.mp hq
    have hqe : poolIdxPlane f k W q.1 q.2 = r * W + c := by simpa using hpq
    obtain ⟨h1, h2⟩ := poolIdx_inv f hk hq2 hc hqe
    exact Prod.ext h1 h2
  · rw [if_neg hcase]
    unfold unpoolPlane
    rw [List.find?_eq_none.mpr ?_]
    intro q hq
    obtain ⟨hq1, hq2⟩ := mem_gridCells.mp hq
    simp only [beq_iff_eq]
    intro hqe
    obtain ⟨h1, h2⟩ := poolIdx_inv f hk hq2 hc hqe
    rw [h1] at hq1
    rw [h2] at hq2
    rw [h1, h2] at hqe
    exact hcase ⟨hq1, hq2, hqe⟩

end Pooling

section Deconv

variable {α : Type} [LinearOrderedField α]

/-- A 4-dimensional value tensor: batch, channel and two spatial
extents, with a value at every index. -/
structure T4 (α : Type) where
  batch : Nat
  ch : Nat
  h : Nat
  w : Nat
  val : Nat → Nat → Nat → Nat → α

/-- `nn.MaxUnpool2d` on a 4-D tensor with an explicit `output_size`
(`pre_pool.size()`): the output has exactly the requested shape and
each channel plane is `unpoolPlane`, scattering the pooled values of
that plane by its recorded flat indices. -/
def unpool4 (x : T4 α) (idx : Nat → Nat → Nat → Nat → Nat) (sz : List Nat) : T4 α :=
  match sz with
  | [b, c, hh, ww] =>
    { batch := b, ch := c, h := hh, w := ww
      val := fun n ci r cc => unpoolPlane (x.val n ci) (idx n ci) x.h x.w ww r cc }
  | _ => { batch := 0, ch := 0, h := 0, w := 0, val := fun _ _ _ _ => 0 }

/-- Out-channel count of a weight tensor (dimension 0). -/
def wOut (w : Weight α) : Nat := w.length

/-- In-channel count of a weight tensor (dimension 1). -/
def wIn (w : Weight α) : Nat := (w.getD 0 []).length

/-- Kernel height of a weight tensor (dimension 2). -/
def wKh (w : Weight α) : Nat := ((w.getD 0 []).getD 0 []).length

/-- Kernel width of a weight tensor (dimension 3). -/
def wKw (w : Weight α) : Nat := (((w.getD 0 []).getD 0 []).getD 0 []).length

/-- Entry of a weight tensor at (dim0, dim1, dim2, dim3). -/
def wget (w : Weight α) (o i di dj : Nat) : α :=
  (((w.getD o []).getD i []).getD di []).getD dj 0

/-- `weight.flip([2, 3])`: reverse both spatial axes of every
2-dimensional kernel (180° rotation). -/
def flip23 (w : Weight α) : Weight α :=
  w.map (fun f => f.map (fun ker => (ker.map List.reverse).reverse))

/-- `F.conv_transpose2d(x, w, stride=s, padding=p, output_padding=op)`
with no bias: the input value at (i, j) contributes through kernel
entry (di, dj) to output position (i·s - p + di, j·s - p + dj), and
the output spatial extent is (n-1)·s - 2p + k + op.  Dimension 0 of
the weight indexes the input channels, dimension 1 the output
channels. -/
def conv_transpose2d (x : T4 α) (w : Weight α) (stride padding output_padding : Nat) :
    T4 α :=
  { batch := x.batch
    ch := wIn w
    h := (x.h - 1) * stride + wKh w + output_padding - 2 * padding
    w := (x.w - 1) * stride + wKw w + output_padding - 2 * padding
    val := fun n oc y z =>
      ∑ c ∈ Finset.range x.ch, ∑ i ∈ Finset.range x.h, ∑ j ∈ Finset.range x.w,
        ∑ di ∈ Finset.range (wKh w), ∑ dj ∈ Finset.range (wKw w),
          if i * stride + di = y + padding ∧ j * stride + dj = z + padding then
            x.val n c i j * wget w c oc di dj
          else 0 }

/-- `DeconvLayer` (layers.py): holds (a reference to) its paired
forward conv stage; it owns no weights of its own. -/
structure DeconvLayer (α : Type) where
  conv_layer : ConvLayer α

/-- `DeconvLayer.forward`: unpool with the recorded indices to exactly
the recorded pre-pool size, then a transposed convolution with the
paired conv stage's weight flipped on both spatial axes, no bias, the
conv stage's stride and padding, and output padding 1 exactly when
that stride exceeds 1. -/
def DeconvLayer.forward (d : DeconvLayer α) (x : T4 α)
    (max_indices : Nat → Nat → Nat → Nat → Nat) (pre_pool_size : List Nat) : T4 α :=
  conv_transpose2d (unpool4 x max_indices pre_pool_size)
    (flip23 d.conv_layer.weight) d.conv_layer.stride d.conv_layer.padding
    (if 1 < d.conv_layer.stride then 1 else 0)

/-- Well-formedness of a weight tensor: rectangular with the given
four dimensions. -/
def WF (w : Weight α) (cout cin kh kw : Nat) : Prop :=
  w.length = cout ∧ ∀ f ∈ w, f.length = cin ∧ ∀ ker ∈ f, ker.length = kh ∧
    ∀ row ∈ ker, row.length = kw

theorem wget_flip23 (w : Weight α) (cout cin kh kw o i di dj : Nat)
    (hw : WF w cout cin kh kw) (ho : o < cout) (hi : i < cin)
    (hdi : di < kh) (hdj : dj < kw) :
    wget (flip23 w) o i di dj = wget w o i (kh - 1 - di) (kw - 1 - dj) := by
  obtain ⟨hlen, hrest⟩ := hw
  have ho' : o < w.length := by omega
  have hfmem : w[o] ∈ w := List.getElem_mem ho'
  obtain ⟨hflen, hker⟩ := hrest w[o] hfmem
  have hi' : i < w[o].length := by omega
  have hkmem : w[o][i] ∈ w[o] := List.getElem_mem hi'
  obtain ⟨hklen, hrow⟩ := hker w[o][i] hkmem
  have hdi' : kh - 1 - di < w[o][i].length := by omega
  have hrmem : w[o][i][kh - 1 - di] ∈ w[o][i] := List.getElem_mem hdi'
  have hrlen := hrow w[o][i][kh - 1 - di] hrmem
  have e1 : (flip23 w).getD o [] =
      w[o].map (fun ker => (ker.map List.reverse).reverse) := by
    unfold flip23
    rw [List.getD_eq_getElem _ _ (by simpa using ho'), List.getElem_map]
  have e2 : (w[o].map (fun ker => (ker.map List.reverse).reverse)).getD i [] =
      (w[o][i].map List.reverse).reverse := by
    rw [List.getD_eq_getElem _ _ (by simpa using hi'), List.getElem_map]
  have e3 : ((w[o][i].map List.reverse).reverse).getD di [] =
      (w[o][i][kh - 1 - di]).reverse := by
    rw [List.getD_eq_getElem _ _ (by simp [hklen]; omega), List.getElem_reverse,
      List.getElem_map]
    congr 1
    simp [hklen]
  have e4 : ((w[o][i][kh - 1 - di]).reverse).getD dj 0 =
      w[o][i][kh - 1 - di][kw - 1 - dj] := by
    rw [List.getD_eq_getElem _ _ (by simp [hrlen]; omega), List.getElem_reverse]
    congr 1
    simp [hrlen]
  have e5 : (((w.getD o []).getD i []).getD (kh - 1 - di) []).getD (kw - 1 - dj) 0 =
      w[o][i][kh - 1 - di][kw - 1 - dj] := by
    rw [List.getD_eq_getElem _ _ ho', List.getD_eq_getElem _ _ hi',
      List.getD_eq_getElem _ _ hdi',
      List.getD_eq_getElem _ _ (show kw - 1 - dj < w[o][i][kh - 1 - di].length by
        rw [hrlen]; omega)]
  unfold wget
  rw [e1, e2, e3, e4, e5]

/-- C1: per-stage reversal of a `DeconvLayer` paired with conv stage C
given the forward `LayerState`: (1) unpooling the pool's own value and
index planes scatters each value to exactly the recorded position,
with zero at every unselected position, for any pooling window size
k > 0; (2) the unpool output has exactly the requested pre-pool shape;
(3) the reversal is a transposed convolution of the unpooled tensor
with C's weight flipped on both spatial axes, no bias, C's stride and
padding, and output padding 1 exactly when C's stride exceeds 1;
(4) the flip reverses both spatial axes of each 2-D kernel. -/
theorem claim_C1 {α : Type} [LinearOrderedField α]
    (d : DeconvLayer α) (x : T4 α) (idx4 : Nat → Nat → Nat → Nat → Nat) (sz : List Nat)
    (f : Nat → Nat → α) (k H W r c b ch : Nat)
    (cout cin kh kw o i di dj : Nat)
    (hk : 0 < k) (hc : c < W)
    (hw : WF d.conv_layer.weight cout cin kh kw)
    (ho : o < cout) (hi : i < cin) (hdi : di < kh) (hdj : dj < kw) :
    (unpoolPlane (fun i j => poolValPlane f k i j) (fun i j => poolIdxPlane f k W i j)
        (H / k) (W / k) W r c =
      if r / k < H / k ∧ c / k < W / k ∧ poolIdxPlane f k W (r / k) (c / k) = r * W + c
      then poolValPlane f k (r / k) (c / k) else 0) ∧
    ((unpool4 x idx4 [b, ch, H, W]).batch = b ∧ (unpool4 x idx4 [b, ch, H, W]).ch = ch ∧
      (unpool4 x idx4 [b, ch, H, W]).h = H ∧ (unpool4 x idx4 [b, ch, H, W]).w = W) ∧
    (d.forward x idx4 sz =
      conv_transpose2d (unpool4 x idx4 sz) (flip23 d.conv_layer.weight)
        d.conv_layer.stride d.conv_layer.padding
        (if 1 < d.conv_layer.stride then 1 else 0)) ∧
    (wget (flip23 d.conv_layer.weight) o i di dj =
      wget d.conv_layer.weight o i (kh - 1 - di) (kw - 1 - dj)) :=
  ⟨unpool_pool_scatter f k H W r c hk hc, ⟨rfl, rfl, rfl, rfl⟩, rfl,
    wget_flip23 d.conv_layer.weight cout cin kh kw o i di dj hw ho hi hdi hdj⟩

/-- Witness for C1 on a concrete deconv stage with a 2×2 kernel and a
concrete unpool position. -/
theorem claim_C1_witness :
    (unpoolPlane (α := ℚ)
        (fun i j => poolValPlane (fun _ _ => (0 : ℚ)) 2 i j)
        (fun i j => poolIdxPlane (fun _ _ => (0 : ℚ)) 2 4 i j) (4 / 2) (4 / 2) 4 1 1 =
      if 1 / 2 < 4 / 2 ∧ 1 / 2 < 4 / 2 ∧
          poolIdxPlane (fun _ _ => (0 : ℚ)) 2 4 (1 / 2) (1 / 2) = 1 * 4 + 1
      then poolValPlane (fun _ _ => (0 : ℚ)) 2 (1 / 2) (1 / 2) else 0) ∧
    ((unpool4 (⟨1, 1, 1, 1, fun _ _ _ _ => (0 : ℚ)⟩ : T4 ℚ) (fun _ _ _ _ => 0)
        [1, 1, 4, 4]).batch = 1 ∧
      (unpool4 (⟨1, 1, 1, 1, fun _ _ _ _ => (0 : ℚ)⟩ : T4 ℚ) (fun _ _ _ _ => 0)
        [1, 1, 4, 4]).ch = 1 ∧
      (unpool4 (⟨1, 1, 1, 1, fun _ _ _ _ => (0 : ℚ)⟩ : T4 ℚ) (fun _ _ _ _ => 0)
        [1, 1, 4, 4]).h = 4 ∧
      (unpool4 (⟨1, 1, 1, 1, fun _ _ _ _ => (0 : ℚ)⟩ : T4 ℚ) (fun _ _ _ _ => 0)
        [1, 1, 4, 4]).w = 4) ∧
    (DeconvLayer.forward ⟨mkConvLayer 1 1 2 2 [[[[1, 2], [3, 4]]]]⟩
        (⟨1, 1, 1, 1, fun _ _ _ _ => (0 : ℚ)⟩ : T4 ℚ) (fun _ _ _ _ => 0) [1, 1, 4, 4] =
      conv_transpose2d
        (unpool4 (⟨1, 1, 1, 1, fun _ _ _ _ => (0 : ℚ)⟩ : T4 ℚ) (fun _ _ _ _ => 0)
          [1, 1, 4, 4])
        (flip23 (DeconvLayer.conv_layer ⟨mkConvLayer 1 1 2 2 [[[[1, 2], [3, 4]]]]⟩).weight)
        (DeconvLayer.conv_layer ⟨mkConvLayer 1 1 2 2 [[[[1, 2], [3, 4]]]]⟩).stride
        (DeconvLayer.conv_layer ⟨mkConvLayer 1 1 2 2 [[[[1, 2], [3, 4]]]]⟩).padding
        (if 1 < (DeconvLayer.conv_layer ⟨mkConvLayer 1 1 2 2 [[[[1, 2], [3, 4]]]]⟩).stride
          then 1 else 0)) ∧
    (wget (flip23 (DeconvLayer.conv_layer
          ⟨mkConvLayer 1 1 2 2 [[[[(1 : ℚ), 2], [3, 4]]]]⟩).weight) 0 0 1 1 =
      wget (DeconvLayer.conv_layer
          ⟨mkConvLayer 1 1 2 2 [[[[(1 : ℚ), 2], [3, 4]]]]⟩).weight 0 0 (2 - 1 - 1)
        (2 - 1 - 1)) :=
  claim_C1 ⟨mkConvLayer 1 1 2 2 [[[[1, 2], [3, 4]]]]⟩
    (⟨1, 1, 1, 1, fun _ _ _ _ => (0 : ℚ)⟩ : T4 ℚ) (fun _ _ _ _ => 0) [1, 1, 4, 4]
    (fun _ _ => (0 : ℚ)) 2 4 4 1 1 1 1 1 1 2 2 0 0 1 1
    (by decide) (by decide) (by unfold WF; decide) (by decide) (by decide) (by decide)
    (by decide)

end Deconv

section Normalize

open scoped Classical

/-- A single convolution filter (one output channel's kernel stack):
per input channel a 2-D kernel. -/
abbrev Filt := List (List (List ℝ))

/-- All weight values of a filter (its full receptive extent). -/
def flatFilt (f : Filt) : List ℝ := f.flatMap (fun ker => ker.flatMap id)

/-- Sum of squared weight values of a filter. -/
def sumSq (f : Filt) : ℝ := ((flatFilt f).map (fun x => x ^ 2)).sum

/-- `torch.sqrt(torch.mean(weight.pow(2), dim=(1,2,3)))` for one
filter: the root of the mean of the squared weights over the filter's
full receptive extent. -/
noncomputable def rmsF (f : Filt) : ℝ :=
  Real.sqrt (sumSq f / (flatFilt f).length)

/-- Rescale every weight of a filter by `c`. -/
def scaleFilt (c : ℝ) (f : Filt) : Filt :=
  f.map (fun ker => ker.map (fun row => row.map (fun x => c * x)))

/-- One filter's normalization step: filters whose RMS exceeds the
radius are rescaled by `radius / RMS`; all others are untouched
(scale factor 1). -/
noncomputable def normalizeFilter (r : ℝ) (f : Filt) : Filt :=
  if r < rmsF f then scaleFilt (r / rmsF f) f else f

/-- One layer's step of `SimpleCNN.normalize_filters`: if any filter
exceeds the radius, apply the per-filter scale vector to the weight
tensor; otherwise the layer is skipped entirely. -/
noncomputable def normalizeLayerWeight (r : ℝ) (w : List Filt) : List Filt :=
  if ∃ f ∈ w, r < rmsF f then w.map (normalizeFilter r) else w

/-- `self.filter_radius = 1e-1` (ZF2013). -/
noncomputable def filterRadius : ℝ := 1 / 10

/-- `SimpleCNN.normalize_filters`: normalize every stage's weight
in place and report, per stage that had at least one rescaled filter,
the applied scale factors. -/
noncomputable def SimpleCNN.normalize_filters (cnn : SimpleCNN ℝ) :
    SimpleCNN ℝ × List (Option (List ℝ)) :=
  ({ cnn with conv_layers := cnn.conv_layers.map (fun L =>
      { L with weight := normalizeLayerWeight cnn.filter_radius L.weight }) },
    cnn.conv_layers.map (fun L =>
      if ∃ f ∈ L.weight, cnn.filter_radius < rmsF f then
        some (L.weight.map (fun f =>
          if cnn.filter_radius < rmsF f then cnn.filter_radius / rmsF f else 1))
      else none))

theorem flatFilt_scale (c : ℝ) (f : Filt) :
    flatFilt (scaleFilt c f) = (flatFilt f).map (fun x => c * x) := by
  unfold flatFilt scaleFilt
  induction f with
  | nil => simp
  | cons ker rest ih =>
    simp only [List.map_cons, List.flatMap_cons, ih, List.map_append]
    congr 1
    induction ker with
    | nil => simp
    | cons row rows ih2 =>
      simp [ih2]

theorem sumSq_scale (c : ℝ) (f : Filt) : sumSq (scaleFilt c f) = c ^ 2 * sumSq f := by
  unfold sumSq
  rw [flatFilt_scale, List.map_map]
  induction flatFilt f with
  | nil => simp
  | cons a l ih =>
    simp only [List.map_cons, List.sum_cons, ih, Function.comp]
    ring

theorem rmsF_scale (c : ℝ) (f : Filt) : rmsF (scaleFilt c f) = |c| * rmsF f := by
  unfold rmsF
  rw [sumSq_scale, flatFilt_scale, List.length_map, mul_div_assoc,
    Real.sqrt_mul (sq_nonneg c), Real.sqrt_sq_eq_abs]

theorem rmsF_nonneg (f : Filt) : 0 ≤ rmsF f := Real.sqrt_nonneg _

/-- A filter that exceeded the radius has, after rescaling, RMS equal
to the radius exactly. -/
theorem rmsF_after_scale (r : ℝ) (f : Filt) (hr : 0 < r) (h : r < rmsF f) :
    rmsF (scaleFilt (r / rmsF f) f) = r := by
  have hpos : 0 < rmsF f := lt_trans hr h
  rw [rmsF_scale, abs_of_pos (div_pos hr hpos), div_mul_cancel₀ r (ne_of_gt hpos)]

/-- After one application, no filter's RMS still exceeds the radius. -/
theorem not_exceeds_after (r : ℝ) (hr : 0 < r) (f : Filt) :
    ¬ r < rmsF (normalizeFilter r f) := by
  unfold normalizeFilter
  by_cases h : r < rmsF f
  · rw [if_pos h, rmsF_after_scale r f hr h]
    exact lt_irrefl r
  · rw [if_neg h]
    exact h

/-- The per-layer step rewrites every filter by the per-filter step
(the skipped-layer branch coincides with the identity map). -/
theorem normalizeLayerWeight_eq_map (r : ℝ) (w : List Filt) :
    normalizeLayerWeight r w = w.map (normalizeFilter r) := by
  unfold normalizeLayerWeight
  by_cases h : ∃ f ∈ w, r < rmsF f
  · rw [if_pos h]
  · rw [if_neg h]
    have : ∀ f ∈ w, normalizeFilter r f = f := by
      intro f hf
      unfold normalizeFilter
      rw [if_neg (fun hx => h ⟨f, hf, hx⟩)]
    rw [List.map_congr_left this]
    simp

theorem normalizeLayerWeight_idem (r : ℝ) (hr : 0 < r) (w : List Filt) :
    normalizeLayerWeight r (normalizeLayerWeight r w) = normalizeLayerWeight r w := by
  rw [normalizeLayerWeight_eq_map r w]
  unfold normalizeLayerWeight
  rw [if_neg ?_]
  rintro ⟨f, hf, hx⟩
  obtain ⟨g, _, rfl⟩ := List.mem_map.mp hf
  exact not_exceeds_after r hr g hx

/-- C4: one application of the filter normalizer rescales exactly the
filters whose RMS exceeds the radius r = 1e-1, each by exactly
r / RMS, making their new RMS equal r exactly; filters with RMS ≤ r
are left unchanged; in particular a filter with RMS 1/2 is rescaled by
exactly 1/5; and the per-layer normalization applies this per-filter
step to every output filter of the stage's weight tensor. -/
theorem claim_C4 (f : Filt) (w : List Filt) :
    (mkSimpleCNN (α := ℝ) defaultConfig [] [] [] []).filter_radius = filterRadius ∧
    normalizeLayerWeight filterRadius w = w.map (normalizeFilter filterRadius) ∧
    (rmsF f ≤ filterRadius → normalizeFilter filterRadius f = f) ∧
    (filterRadius < rmsF f →
      normalizeFilter filterRadius f = scaleFilt (filterRadius / rmsF f) f ∧
      rmsF (normalizeFilter filterRadius f) = filterRadius) ∧
    (rmsF f = 1 / 2 → normalizeFilter filterRadius f = scaleFilt (1 / 5) f) := by
  have hr : (0 : ℝ) < filterRadius := by unfold filterRadius; norm_num
  refine ⟨rfl, normalizeLayerWeight_eq_map filterRadius w, ?_, ?_, ?_⟩
  · intro h
    unfold normalizeFilter
    rw [if_neg (not_lt.mpr h)]
  · intro h
    constructor
    · unfold normalizeFilter
      rw [if_pos h]
    · unfold normalizeFilter
      rw [if_pos h]
      exact rmsF_after_scale filterRadius f hr h
  · intro h
    unfold normalizeFilter
    rw [if_pos (by rw [h]; unfold filterRadius; norm_num)]
    rw [h]
    norm_num [filterRadius]

theorem rmsF_half : rmsF [[[(1 / 2 : ℝ)]]] = 1 / 2 := by
  have hflat : flatFilt [[[(1 / 2 : ℝ)]]] = [1 / 2] := by
    simp [flatFilt]
  have hs : sumSq [[[(1 / 2 : ℝ)]]] = 1 / 4 := by
    unfold sumSq
    rw [hflat]
    norm_num
  unfold rmsF
  rw [hs, hflat]
  rw [show ((1 / 4 : ℝ) / (([(1 / 2 : ℝ)] : List ℝ).length : ℝ)) = (1 / 2) ^ 2 by
    simp; norm_num]
  exact Real.sqrt_sq (by norm_num)

/-- Witness for C4: a concrete one-weight filter with RMS 1/2 is
rescaled by exactly 1/5 and its new RMS is exactly the radius. -/
theorem claim_C4_witness :
    (mkSimpleCNN (α := ℝ) defaultConfig [] [] [] []).filter_radius = filterRadius ∧
    normalizeFilter filterRadius [[[(1 / 2 : ℝ)]]] = scaleFilt (1 / 5) [[[(1 / 2 : ℝ)]]] ∧
    rmsF (normalizeFilter filterRadius [[[(1 / 2 : ℝ)]]]) = filterRadius := by
  have h := claim_C4 [[[(1 / 2 : ℝ)]]] []
  refine ⟨h.1, h.2.2.2.2 rmsF_half, (h.2.2.2.1 ?_).2⟩
  rw [rmsF_half]
  unfold filterRadius
  norm_num

/-- C5: the filter normalizer is idempotent — a second consecutive
application of `normalize_filters` changes no weight (and hence none
of the network's state), because after the first application no
filter's RMS still exceeds the radius. -/
theorem claim_C5 (cnn : SimpleCNN ℝ) (hr : 0 < cnn.filter_radius) :
    (cnn.normalize_filters.1).normalize_filters.1 = cnn.normalize_filters.1 := by
  unfold SimpleCNN.normalize_filters
  simp only
  congr 1
  rw [List.map_map]
  apply List.map_congr_left
  intro L _
  simp only [Function.comp]
  congr 1
  exact normalizeLayerWeight_idem cnn.filter_radius hr L.weight

/-- Witness for C5 on a concrete network. -/
theorem claim_C5_witness :
    ((mkSimpleCNN (α := ℝ) defaultConfig [[[[1]]]] [] [] []).normalize_filters.1).normalize_filters.1 =
      (mkSimpleCNN (α := ℝ) defaultConfig [[[[1]]]] [] [] []).normalize_filters.1 :=
  claim_C5 (mkSimpleCNN defaultConfig [[[[1]]]] [] [] [])
    (by norm_num [mkSimpleCNN])

/-- The conv stage paired with the deconv stage at a given position
(the index stored by `SimpleCNN.__init__`). -/
def pairedConvIdx {α : Type} (cnn : SimpleCNN α) (i : Nat) : Nat :=
  cnn.deconv_layers.getD i 0

/-- A conv stage's weight storage, looked up in the network at read
time. -/
def weightOf {α : Type} (cnn : SimpleCNN α) (j : Nat) : Weight α :=
  (cnn.conv_layers.getD j (mkConvLayer 0 0 0 0 [])).weight

/-- The weight a deconv stage reads and uses during reversal: the
paired conv stage's current weight, spatially flipped — looked up at
forward time, not copied at construction. -/
def deconvUsedWeight {α : Type} (cnn : SimpleCNN α) (i : Nat) : Weight α :=
  flip23 (weightOf cnn (pairedConvIdx cnn i))

/-- An external in-place update of one conv stage's weight storage
(e.g. an optimizer step). -/
def updateConvWeight {α : Type} (cnn : SimpleCNN α) (j : Nat) (u : Weight α → Weight α) :
    SimpleCNN α :=
  let L := cnn.conv_layers.getD j (mkConvLayer 0 0 0 0 [])
  { cnn with conv_layers := cnn.conv_layers.set j { L with weight := u L.weight } }

theorem getD_set_self {β : Type} (l : List β) (j : Nat) (a d : β) (hj : j < l.length) :
    (l.set j a).getD j d = a := by
  rw [List.getD_eq_getElem _ _ (by simpa using hj)]
  simp [List.getElem_set]

theorem getD_map_of_lt {β γ : Type} (g : β → γ) (l : List β) (j : Nat) (d : γ)
    (hj : j < l.length) : (l.map g).getD j d = g l[j] := by
  rw [List.getD_eq_getElem _ _ (by simpa using hj), List.getElem_map]

/-- C3: a deconv stage holds only the index of its paired conv stage
(no weight copy at construction), so for any modification of that conv
stage's weight storage — an arbitrary external update, or
`normalize_filters` — every subsequent reversal reads and uses the
updated weight values. -/
theorem claim_C3 (cnn : SimpleCNN ℝ) (i j : Nat) (u : Weight ℝ → Weight ℝ)
    (hij : pairedConvIdx cnn i = j) (hj : j < cnn.conv_layers.length) :
    deconvUsedWeight (updateConvWeight cnn j u) i = flip23 (u (weightOf cnn j)) ∧
    deconvUsedWeight cnn.normalize_filters.1 i =
      flip23 (normalizeLayerWeight cnn.filter_radius (weightOf cnn j)) := by
  constructor
  · unfold deconvUsedWeight
    have hp : pairedConvIdx (updateConvWeight cnn j u) i = j := by
      unfold pairedConvIdx updateConvWeight
      exact hij
    rw [hp]
    congr 1
    unfold weightOf updateConvWeight
    dsimp only
    rw [getD_set_self _ _ _ _ hj]
  · unfold deconvUsedWeight
    have hp : pairedConvIdx cnn.normalize_filters.1 i = j := by
      unfold pairedConvIdx SimpleCNN.normalize_filters
      exact hij
    rw [hp]
    congr 1
    unfold weightOf SimpleCNN.normalize_filters
    dsimp only
    rw [getD_map_of_lt _ _ _ _ hj, List.getD_eq_getElem _ _ hj]

/-- Witness for C3: after normalization (and after an external update)
the deconv stage at position 3 reads the updated weight of conv stage
0. -/
theorem claim_C3_witness :
    deconvUsedWeight
        (updateConvWeight (mkSimpleCNN (α := ℝ) defaultConfig [[[[1]]]] [] [] []) 0
          (fun _ => [])) 3 =
      flip23 ((fun _ => ([] : Weight ℝ))
        (weightOf (mkSimpleCNN (α := ℝ) defaultConfig [[[[1]]]] [] [] []) 0)) ∧
    deconvUsedWeight (mkSimpleCNN (α := ℝ) defaultConfig [[[[1]]]] [] [] []).normalize_filters.1 3 =
      flip23 (normalizeLayerWeight
        (mkSimpleCNN (α := ℝ) defaultConfig [[[[1]]]] [] [] []).filter_radius
        (weightOf (mkSimpleCNN (α := ℝ) defaultConfig [[[[1]]]] [] [] []) 0)) :=
  claim_C3 (mkSimpleCNN defaultConfig [[[[1]]]] [] [] []) 3 0 (fun _ => [])
    rfl (by norm_num [mkSimpleCNN])

end Normalize

end ZF
